import Mathlib

/-!
Verification of the blockwise caching pipeline of
`lazyflow/operators/opRefactoredBlockedArrayCache.py` (`OpRefactoredBlockedArrayCache`)
against its natural-language specification.

The composer operator itself (slot declarations and the wiring performed in
`__init__`) is embedded directly from the source file.  The three internal
stages (`OpCacheFixer`, `OpUnblockedArrayCache`, `OpSplitRequestsBlockwise`)
and the block-grid algebra are not part of the provided sources, so their
behaviour is modelled from the specification, as marked on each definition.
-/

namespace RefactoredBlockedArrayCache

/-- The slots of the composer `OpRefactoredBlockedArrayCache` and of its three
internal operators, as declared in the source.  `Input`, `fixAtCurrent`,
`innerBlockShape`, `outerBlockShape` and `Output` are the composer's own slots
(source lines 38-44); the remaining constructors are the slots of the three
child operators created in `__init__`. -/
inductive Slot where
  | Input
  | fixAtCurrent
  | innerBlockShape
  | outerBlockShape
  | Output
  | fixerInput
  | fixerFixAtCurrent
  | fixerOutput
  | cacheInput
  | cacheOutput
  | splitterInput
  | splitterBlockShape
  | splitterOutput
  deriving DecidableEq

/-- The operators appearing in the composed pipeline. -/
inductive OpNode where
  | composer
  | opCacheFixer
  | opUnblockedArrayCache
  | opSplitRequestsBlockwise
  deriving DecidableEq

/-- Owner operator of each slot. -/
def owner : Slot → OpNode
  | .Input => .composer
  | .fixAtCurrent => .composer
  | .innerBlockShape => .composer
  | .outerBlockShape => .composer
  | .Output => .composer
  | .fixerInput => .opCacheFixer
  | .fixerFixAtCurrent => .opCacheFixer
  | .fixerOutput => .opCacheFixer
  | .cacheInput => .opUnblockedArrayCache
  | .cacheOutput => .opUnblockedArrayCache
  | .splitterInput => .opSplitRequestsBlockwise
  | .splitterBlockShape => .opSplitRequestsBlockwise
  | .splitterOutput => .opSplitRequestsBlockwise

/-- The input slots declared on the composer class (source lines 38-42). -/
def composerInputSlots : List Slot :=
  [.Input, .fixAtCurrent, .innerBlockShape, .outerBlockShape]

/-- The output slots declared on the composer class (source line 44). -/
def composerOutputSlots : List Slot := [.Output]

/-- Which composer slots carry array data (`allow_mask=True` in the source:
only `Input` and `Output`); the remaining input slots are configuration. -/
def allowMask : Slot → Bool
  | .Input => true
  | .Output => true
  | _ => false

/-- Which composer input slots are declared `optional=True` in the source
(only `innerBlockShape`, line 41). -/
def slotOptional : Slot → Bool
  | .innerBlockShape => true
  | _ => false

/-- Default value of the `fixAtCurrent` input slot: `InputSlot(value=False)`,
source line 39. -/
def fixAtCurrentDefault : Bool := false

/-- The `always_request_full_blocks` constructor argument passed to
`OpSplitRequestsBlockwise` in `__init__` (source line 62). -/
def always_request_full_blocks : Bool := true

/-- The slot connections performed by `OpRefactoredBlockedArrayCache.__init__`
(source lines 55-68), in source order, each as a pair
(downstream slot, upstream slot it is connected to). -/
def composerConnections : List (Slot × Slot) :=
  [ (.fixerInput, .Input),
    (.fixerFixAtCurrent, .fixAtCurrent),
    (.cacheInput, .fixerOutput),
    (.splitterBlockShape, .outerBlockShape),
    (.splitterInput, .cacheOutput),
    (.Output, .splitterOutput) ]

/-- The upstream partner a slot is connected to, if any. -/
def connectionOf (s : Slot) : Option Slot :=
  (composerConnections.find? (fun c => decide (c.1 = s))).map Prod.snd

/-- The data-input slot of each internal operator (the slot its output is
computed from on the read path). -/
def opDataInput : Slot → Option Slot
  | .fixerOutput => some .fixerInput
  | .cacheOutput => some .cacheInput
  | .splitterOutput => some .splitterInput
  | _ => none

/-- One step backwards along the read path: an internal operator's output slot
steps to that operator's data input; any other slot follows its connection. -/
def upstreamStep (s : Slot) : Option Slot :=
  match opDataInput s with
  | some i => some i
  | none => connectionOf s

/-- Trace the read path upstream from a slot, for `n` steps at most. -/
def traceUpstream : Nat → Slot → List Slot
  | 0, s => [s]
  | n + 1, s =>
    match upstreamStep s with
    | some t => s :: traceUpstream n t
    | none => [s]

/-- Modelled from the spec: read dispatch in the dataflow graph.  A read
request arriving at a slot is answered by the slot's connected upstream
partner when a connection exists; only a slot with no connection invokes its
owning operator's `execute`. -/
inductive Responder where
  | partner (s : Slot)
  | executeOf (op : OpNode)
  deriving DecidableEq

/-- Modelled from the spec: which responder answers a read on a slot. -/
def readDispatch (s : Slot) : Responder :=
  match connectionOf s with
  | some src => .partner src
  | none => .executeOf (owner s)

/-- The body of `OpRefactoredBlockedArrayCache.execute` (source lines 73-74):
`assert False`, i.e. it never produces a value. -/
def composerExecute : Option Unit := none

/-! ### Regions of interest and the block grid

The block-grid algebra and the three internal stages are not in the provided
sources; they are modelled from the specification (sections 3, 4.1, 4.3, 4.4). -/

/-- A region of interest: per-axis half-open interval `[start i, stop i)`. -/
structure Roi where
  start : List Nat
  stop : List Nat
  deriving DecidableEq

/-- `inInterval a p c` holds when the point `p` lies in the per-axis half-open
box `[a, c)`; `false` on mismatched dimensions. -/
def inInterval : List Nat → List Nat → List Nat → Bool
  | [], [], [] => true
  | a :: as, q :: qs, c :: cs => (decide (a ≤ q) && decide (q < c)) && inInterval as qs cs
  | _, _, _ => false

/-- Point membership in a ROI. -/
def memRoi (p : List Nat) (r : Roi) : Bool :=
  inInterval r.start p r.stop

/-- `roiInBounds a c sh` holds when `a ≤ c ≤ sh` per axis with matching
dimensions: the ROI `(a, c)` is within an array of shape `sh`. -/
def roiInBounds : List Nat → List Nat → List Nat → Bool
  | [], [], [] => true
  | a :: as, c :: cs, h :: hs => (decide (a ≤ c) && decide (c ≤ h)) && roiInBounds as cs hs
  | _, _, _ => false

/-- All components of a block shape are positive. -/
def allPos : List Nat → Bool
  | [] => true
  | s :: ss => decide (0 < s) && allPos ss

/-- Pointwise ternary zip, truncating to the shortest list. -/
def zipWith3 {α : Type} (f : Nat → Nat → Nat → α) : List Nat → List Nat → List Nat → List α
  | a :: as, b :: bs, c :: cs => f a b c :: zipWith3 f as bs cs
  | _, _, _ => []

/-- Intersection of two ROIs (pointwise max of starts, min of stops). -/
def roiIntersect (r q : Roi) : Roi :=
  ⟨List.zipWith max r.start q.start, List.zipWith min r.stop q.stop⟩

/-- Bounding box of two ROIs (pointwise min of starts, max of stops). -/
def roiBoundingBox (r q : Roi) : Roi :=
  ⟨List.zipWith min r.start q.start, List.zipWith max r.stop q.stop⟩

/-- The full-extent ROI of an array shape. -/
def fullExtentRoi (shape : List Nat) : Roi :=
  ⟨shape.map (fun _ => 0), shape⟩

/-- Modelled from the spec (4.1): the inclusive range of block indices along
one axis whose covering interval overlaps `[a, c)`, empty when `c ≤ a`. -/
def axisBlocks (a c s : Nat) : List Nat :=
  if c ≤ a then [] else List.range' (a / s) ((c - 1) / s + 1 - a / s)

/-- Cartesian product of per-axis index lists. -/
def cartProd : List (List Nat) → List (List Nat)
  | [] => [[]]
  | xs :: rest => xs.flatMap (fun x => (cartProd rest).map (fun t => x :: t))

/-- Modelled from the spec (4.1, `blocksOverlapping`): the set of block
indices whose covering ROIs overlap the given ROI, as a cartesian product of
per-axis index ranges; empty when the ROI is empty on any axis. -/
def blocksOverlapping (r : Roi) (bs : List Nat) : List (List Nat) :=
  cartProd (zipWith3 axisBlocks r.start r.stop bs)

/-- Modelled from the spec (4.1, `blockCoveringRoi`): the ROI covered by a
block index: per axis `[b*s, min (b*s + s) shape)`; the trailing block is
clipped to the array bounds, not padded. -/
def blockCoveringRoi (b bs shape : List Nat) : Roi :=
  ⟨List.zipWith (fun bi s => bi * s) b bs,
   zipWith3 (fun bi s sh => min (bi * s + s) sh) b bs shape⟩

/-- The block index of the grid cell containing a point. -/
def blockOf (p bs : List Nat) : List Nat :=
  List.zipWith (fun q s => q / s) p bs

/-! ### The block-aligned request splitter (`OpSplitRequestsBlockwise`)

Modelled from the spec (4.4), with `always_request_full_blocks = true` as
passed by the composer's `__init__` (source line 62). -/

/-- Modelled from the spec (4.4): the ROIs the splitter requests from the
cache for a read of `r` — the full block-covering ROI of every overlapping
block, never the intersection with `r`. -/
def splitterRequests (shape bs : List Nat) (r : Roi) : List Roi :=
  (blocksOverlapping r bs).map (fun b => blockCoveringRoi b bs shape)

/-- Modelled from the spec (4.4): assemble the result buffer for a read of
`r` from the per-request block results: each block result contributes only
its overlap with `r`; points outside `r` are left unwritten (`none`). -/
def assembleBlocks {α : Type} (r : Roi) : List (Roi × (List Nat → α)) → List Nat → Option α
  | [], _ => none
  | (q, d) :: rest, p =>
    if memRoi p (roiIntersect q r) then some (d p) else assembleBlocks r rest p

/-- Modelled from the spec (4.4): a splitter read against a (pure) cache read
function: issue the full-block requests, then reassemble into a buffer sized
to the original ROI. -/
def splitterRead {α : Type} (cache : Roi → List Nat → α) (shape bs : List Nat) (r : Roi) :
    List Nat → Option α :=
  assembleBlocks r ((splitterRequests shape bs r).map (fun q => (q, cache q)))

/-! ### The unblocked content cache (`OpUnblockedArrayCache`)

Modelled from the spec (4.3): stores computed data keyed by the exact
requested ROI; a clean stored entry is served without an upstream call; a
missing or dirty entry is recomputed from upstream and stored clean. -/

/-- A cache entry: the stored block data and its dirty flag. -/
structure CacheEntry (α : Type) where
  data : List Nat → α
  dirty : Bool

/-- The cache's entry table, keyed by the requested ROI. -/
abbrev CacheState (α : Type) : Type := List (Roi × CacheEntry α)

/-- Look up the entry stored for a ROI. -/
def lookupEntry {α : Type} (st : CacheState α) (r : Roi) : Option (CacheEntry α) :=
  (st.find? (fun e => decide (e.1 = r))).map Prod.snd

/-- Modelled from the spec (4.3): read one block ROI from the cache.  A clean
stored entry is returned as-is with no upstream call; otherwise upstream is
invoked for exactly that ROI and the result is stored as a clean entry. -/
def cacheRead {α : Type} (up : List Nat → α) (st : CacheState α) (r : Roi) :
    (List Nat → α) × CacheState α :=
  match lookupEntry st r with
  | some e => if e.dirty then (up, (r, ⟨up, false⟩) :: st) else (e.data, st)
  | none => (up, (r, ⟨up, false⟩) :: st)

/-- Sequentially serve a list of block requests from the cache, threading the
cache state and pairing each request with the data served for it. -/
def fetchBlocks {α : Type} (up : List Nat → α) :
    CacheState α → List Roi → List (Roi × (List Nat → α)) × CacheState α
  | st, [] => ([], st)
  | st, q :: rest =>
    let x := cacheRead up st q
    let y := fetchBlocks up x.2 rest
    ((q, x.1) :: y.1, y.2)

/-- Modelled from the spec (6, upstream contract): a direct, uncached
upstream read of a ROI: defined exactly on the points of the ROI. -/
def computeRegion {α : Type} (up : List Nat → α) (r : Roi) : List Nat → Option α :=
  fun p => if memRoi p r then some (up p) else none

/-- Modelled from the spec (4.2): on the read path the dirty-freeze stage
forwards read requests to upstream unchanged, frozen or not. -/
def opCacheFixerRead {α : Type} (up : List Nat → α) : List Nat → α := up

/-- Modelled from the spec (2, 4.3-4.5): a full pipeline read of `r`:
the splitter issues full-block requests, the cache serves them (pulling
through the dirty-freeze stage from upstream on misses), and the results are
reassembled into a buffer sized to `r`.  Returns the result buffer and the
cache state after the read. -/
def pipelineRead {α : Type} (up : List Nat → α) (st : CacheState α) (shape bs : List Nat)
    (r : Roi) : (List Nat → Option α) × CacheState α :=
  let fetched := fetchBlocks (opCacheFixerRead up) st (splitterRequests shape bs r)
  (assembleBlocks r fetched.1, fetched.2)

/-- Cache coherence: every clean stored entry agrees with upstream on the
points of its key ROI. -/
def coherent {α : Type} (up : List Nat → α) (st : CacheState α) : Prop :=
  ∀ e ∈ st, e.2.dirty = false → ∀ p, memRoi p e.1 = true → e.2.data p = up p

/-! ### The dirty-freeze stage (`OpCacheFixer`)

Modelled from the spec (4.2): a two-state machine driven by `setFrozen`
(`fixAtCurrent`); while frozen, upstream dirty regions are accumulated into a
conservative bounding box instead of being forwarded; unfreezing flushes the
accumulated region as one notification and clears it. -/

/-- The dirty-freeze stage's state: the freeze flag and the accumulated dirty
region collected while frozen. -/
structure FixerState where
  fixAtCurrent : Bool
  accDirty : Option Roi
  deriving DecidableEq

/-- Merge a newly dirty ROI into the accumulated region (bounding box). -/
def mergeDirty (acc : Option Roi) (r : Roi) : Option Roi :=
  match acc with
  | none => some r
  | some a => some (roiBoundingBox a r)

/-- Events driving the dirty-freeze stage. -/
inductive FixerEvent where
  | upstreamDirty (r : Roi)
  | setFrozen (b : Bool)

/-- Modelled from the spec (4.2): one step of the dirty-freeze stage,
returning the new state and the dirty regions forwarded downstream. -/
def fixerStep (s : FixerState) : FixerEvent → FixerState × List Roi
  | .upstreamDirty r =>
    if s.fixAtCurrent then (⟨true, mergeDirty s.accDirty r⟩, []) else (s, [r])
  | .setFrozen b =>
    if b then
      (if s.fixAtCurrent then (s, []) else (⟨true, none⟩, []))
    else
      (if s.fixAtCurrent then
        (⟨false, none⟩, match s.accDirty with | none => [] | some a => [a])
      else (s, []))

/-- Run the dirty-freeze stage over a list of events, collecting every dirty
region forwarded downstream in order. -/
def fixerRun (s : FixerState) : List FixerEvent → FixerState × List Roi
  | [] => (s, [])
  | e :: es =>
    let x := fixerStep s e
    let y := fixerRun x.1 es
    (y.1, x.2 ++ y.2)

/-! ### Configuration changes (composer, spec 4.5)

The routing of the configuration inputs is taken from the source wiring
(`composerConnections`); the per-stage reaction is modelled from the spec. -/

/-- The internal stage slots a composer configuration input is routed to, as
recorded in the source wiring. -/
def configTargets (s : Slot) : List Slot :=
  (composerConnections.filter (fun c => decide (c.2 = s))).map Prod.fst

/-- Output metadata of a slot: axis identifiers, shape, element type. -/
structure SlotMeta where
  axistags : List String
  shape : List Nat
  dtype : String
  deriving DecidableEq

/-- Modelled from the spec (4.5): each stage's metadata derivation passes the
upstream metadata through unchanged. -/
def opCacheFixerMeta (m : SlotMeta) : SlotMeta := m

/-- Modelled from the spec (4.5): the cache passes metadata through. -/
def opUnblockedArrayCacheMeta (m : SlotMeta) : SlotMeta := m

/-- Modelled from the spec (4.5): the splitter passes metadata through. -/
def opSplitRequestsBlockwiseMeta (m : SlotMeta) : SlotMeta := m

/-- Output metadata of the composed pipeline: the three stages applied in
wiring order. -/
def pipelineMeta (m : SlotMeta) : SlotMeta :=
  opSplitRequestsBlockwiseMeta (opUnblockedArrayCacheMeta (opCacheFixerMeta m))

/-- Modelled from the spec (4.5): the effect of changing one composer
configuration input: every internal stage the input is routed to re-derives
its metadata (unchanged) and emits one full-extent dirty notification; a
configuration input routed to no stage has no effect. -/
def configChange (s : Slot) (m : SlotMeta) : SlotMeta × List Roi :=
  (pipelineMeta m, (configTargets s).map (fun _ => fullExtentRoi m.shape))

/-! ### Concurrent single-flight model of the cache (spec 4.3, 5)

Modelled from the spec: per-block computation locks with revalidation after
acquiring the lock.  `T` is the type of requester (thread) identities, `B`
the type of block identities.  A step either issues a read, serves a valid
block, acquires the lock of a missing block and starts the sole upstream
computation, or completes a computation, storing the block as valid. -/

/-- Status of a cache entry in the concurrent model. -/
inductive EntryState (T : Type) where
  | missing
  | inFlight (t : T)
  | valid
  deriving DecidableEq

/-- Status of one requester. -/
inductive ThreadState (B : Type) where
  | idle
  | wants (b : B)
  | running (b : B)
  | finished (b : B)
  deriving DecidableEq

/-- Global state of the concurrent cache: entry table and requester states. -/
structure SysState (T B : Type) where
  entry : B → EntryState T
  thr : T → ThreadState B

/-- Observable events of a step: `computeStart b` marks the launch of an
upstream computation for block `b`; every other step is silent. -/
inductive Evt (B : Type) where
  | tau
  | computeStart (b : B)
  deriving DecidableEq

/-- Modelled from the spec (4.3, 5): the step relation of the concurrent
cache.  A requester may issue a read for a block; a read of a valid block
completes from the store; a read of a missing block acquires its per-block
lock and starts the upstream computation (only when no computation holds the
lock — the entry must be `missing`); a running computation completes, marks
the entry valid and releases the lock.  A requester that finds the entry
`inFlight` has no enabled step: it waits. -/
inductive SysStep {T B : Type} [DecidableEq T] [DecidableEq B] :
    SysState T B → Evt B → SysState T B → Prop where
  | request (s : SysState T B) (t : T) (b : B) :
      s.thr t = .idle →
      SysStep s .tau ⟨s.entry, Function.update s.thr t (.wants b)⟩
  | hit (s : SysState T B) (t : T) (b : B) :
      s.thr t = .wants b → s.entry b = .valid →
      SysStep s .tau ⟨s.entry, Function.update s.thr t (.finished b)⟩
  | start (s : SysState T B) (t : T) (b : B) :
      s.thr t = .wants b → s.entry b = .missing →
      SysStep s (.computeStart b)
        ⟨Function.update s.entry b (.inFlight t), Function.update s.thr t (.running b)⟩
  | finish (s : SysState T B) (t : T) (b : B) :
      s.thr t = .running b → s.entry b = .inFlight t →
      SysStep s .tau
        ⟨Function.update s.entry b .valid, Function.update s.thr t (.finished b)⟩

/-- A finite execution: a trace of events from one state to another. -/
inductive SysExec {T B : Type} [DecidableEq T] [DecidableEq B] :
    SysState T B → List (Evt B) → SysState T B → Prop where
  | nil (s : SysState T B) : SysExec s [] s
  | cons {s1 s2 s3 : SysState T B} {e : Evt B} {tr : List (Evt B)} :
      SysStep s1 e s2 → SysExec s2 tr s3 → SysExec s1 (e :: tr) s3

/-- The lock invariant: a requester computing block `b` holds `b`'s lock. -/
def lockInv {T B : Type} (s : SysState T B) : Prop :=
  ∀ t b, s.thr t = .running b → s.entry b = .inFlight t

/-- Number of upstream computations of block `b` launched in a trace. -/
def countStart {B : Type} [DecidableEq B] (tr : List (Evt B)) (b : B) : Nat :=
  tr.countP (fun e => decide (e = .computeStart b))

/-! ### Theorems -/

/-- C1: the composer wires Input -> OpCacheFixer -> OpUnblockedArrayCache ->
OpSplitRequestsBlockwise -> Output: tracing the read path upstream from the
composer's `Output` passes through the splitter, then the cache, then the
dirty-freeze stage, and ends at the composer's `Input`; exactly one input
slot and one output slot carry data (`allow_mask`), and the freeze
configuration is routed to the dirty-freeze stage while the outer block
shape is routed to the splitter. -/
theorem C1_composer_wiring :
    traceUpstream 7 Slot.Output =
      [Slot.Output, Slot.splitterOutput, Slot.splitterInput, Slot.cacheOutput,
       Slot.cacheInput, Slot.fixerOutput, Slot.fixerInput, Slot.Input]
    ∧ composerInputSlots.filter allowMask = [Slot.Input]
    ∧ composerOutputSlots.filter allowMask = [Slot.Output]
    ∧ connectionOf Slot.fixerFixAtCurrent = some Slot.fixAtCurrent
    ∧ owner Slot.fixerFixAtCurrent = OpNode.opCacheFixer
    ∧ connectionOf Slot.splitterBlockShape = some Slot.outerBlockShape
    ∧ owner Slot.splitterBlockShape = OpNode.opSplitRequestsBlockwise := by
  decide

/-- C9: the composer's `Output` slot is connected to the splitter's `Output`,
so under the graph's read dispatch every read entering the composer's output
is answered by the internal pipeline; the `execute` body (`assert False`,
which never produces a value) is unreachable. -/
theorem C9_execute_unreachable :
    readDispatch Slot.Output = Responder.partner Slot.splitterOutput
    ∧ readDispatch Slot.Output ≠ Responder.executeOf OpNode.composer
    ∧ composerExecute = none := by
  decide

/-- C10: the `fixAtCurrent` slot defaults to `False` (source line 39), so a
freshly constructed pipeline starts Live and the dirty-freeze stage forwards
an upstream dirty notification downstream unchanged and immediately. -/
theorem C10_default_live :
    fixAtCurrentDefault = false
    ∧ (∀ r : Roi,
        fixerStep ⟨fixAtCurrentDefault, none⟩ (.upstreamDirty r) = (⟨false, none⟩, [r])) := by
  exact ⟨rfl, fun r => rfl⟩

/-- C5: output metadata of the pipeline equals input metadata: every stage
passes axis identifiers, shape and element type through unchanged. -/
theorem C5_metadata_identity (m : SlotMeta) :
    pipelineMeta m = m
    ∧ (pipelineMeta m).axistags = m.axistags
    ∧ (pipelineMeta m).shape = m.shape
    ∧ (pipelineMeta m).dtype = m.dtype :=
  ⟨rfl, rfl, rfl, rfl⟩

/-- C2 counterexample: the claim says a change of any of the three
configuration inputs emits one full-extent dirty notification; but
`innerBlockShape` is connected to no internal stage in `__init__`, so
changing it (here on a 100x100 uint8 array) emits no notification at all,
while a change of `outerBlockShape` does emit one. -/
theorem C2_counterexample :
    (configChange Slot.innerBlockShape ⟨["y", "x"], [100, 100], "uint8"⟩).2 = []
    ∧ (configChange Slot.outerBlockShape ⟨["y", "x"], [100, 100], "uint8"⟩).2 =
        [fullExtentRoi [100, 100]] := by
  constructor
  · rfl
  · rfl

/-- C2 (amended): on a change of `fixAtCurrent` or `outerBlockShape` the
composer re-derives its output metadata unchanged from the input metadata and
one full-extent dirty notification is emitted downstream; a change of the
unrouted `innerBlockShape` leaves the metadata derivation unchanged and emits
nothing. -/
theorem C2_config_change (m : SlotMeta) :
    configChange Slot.fixAtCurrent m = (m, [fullExtentRoi m.shape])
    ∧ configChange Slot.outerBlockShape m = (m, [fullExtentRoi m.shape])
    ∧ configChange Slot.innerBlockShape m = (m, []) := by
  refine ⟨?_, ?_, ?_⟩ <;> rfl

/-- C3 counterexample: the claim says a set `innerBlockShape` is routed to
the cache's internal chunking; but in `__init__` no connection has
`innerBlockShape` as source or destination — the slot is accepted and
ignored, and the cache's only wired input is its data input from the
dirty-freeze stage. -/
theorem C3_counterexample :
    composerConnections.all
      (fun c => !(decide (c.1 = Slot.innerBlockShape) || decide (c.2 = Slot.innerBlockShape)))
      = true
    ∧ connectionOf Slot.cacheInput = some Slot.fixerOutput := by
  decide

/-- C3 (amended): `innerBlockShape` is declared optional but is never
connected to any internal operator, set or not; the unblocked cache has no
configured chunking — it stores exactly the ROIs requested of it — and the
only block shape in effect is `outerBlockShape`, routed to the splitter. -/
theorem C3_inner_shape_ignored :
    slotOptional Slot.innerBlockShape = true
    ∧ composerConnections.all
        (fun c => !(decide (c.1 = Slot.innerBlockShape) || decide (c.2 = Slot.innerBlockShape)))
        = true
    ∧ connectionOf Slot.splitterBlockShape = some Slot.outerBlockShape
    ∧ (∀ (up : List Nat → Nat) (r : Roi),
        (cacheRead up ([] : CacheState Nat) r).2 = [(r, ⟨up, false⟩)]) := by
  refine ⟨rfl, by decide, rfl, fun up r => rfl⟩

/-- A point inside a box determines the dimensions of the box's corners. -/
theorem inInterval_lengths :
    ∀ (a p c : List Nat), inInterval a p c = true →
      a.length = p.length ∧ c.length = p.length := by
  intro a
  induction a with
  | nil =>
    intro p c h
    cases p <;> cases c <;> simp_all [inInterval]
  | cons x xs ih =>
    intro p c h
    cases p with
    | nil => simp [inInterval] at h
    | cons q qs =>
      cases c with
      | nil => simp [inInterval] at h
      | cons y ys =>
        simp only [inInterval, Bool.and_eq_true] at h
        have h2 := ih qs ys h.2
        simp [h2.1, h2.2]

/-- A point of either of two equal-dimension boxes lies in their bounding
box (pointwise min of starts, max of stops). -/
theorem inInterval_bbox :
    ∀ (p a1 c1 a2 c2 : List Nat),
      a1.length = a2.length → c1.length = c2.length →
      (inInterval a1 p c1 = true ∨ inInterval a2 p c2 = true) →
      inInterval (List.zipWith min a1 a2) p (List.zipWith max c1 c2) = true := by
  intro p
  induction p with
  | nil =>
    intro a1 c1 a2 c2 h1 h2 h
    have hz : a1.length = 0 ∧ c1.length = 0 ∧ a2.length = 0 ∧ c2.length = 0 := by
      rcases h with h | h <;> obtain ⟨ha, hc⟩ := inInterval_lengths _ _ _ h <;>
        simp only [List.length_nil] at ha hc <;> omega
    obtain ⟨z1, z2, z3, z4⟩ := hz
    rw [List.length_eq_zero] at z1 z2 z3 z4
    subst z1; subst z2; subst z3; subst z4
    rfl
  | cons q qs ih =>
    intro a1 c1 a2 c2 h1 h2 h
    have hlen : a1.length = qs.length + 1 ∧ c1.length = qs.length + 1 ∧
        a2.length = qs.length + 1 ∧ c2.length = qs.length + 1 := by
      rcases h with h | h <;>
        · obtain ⟨ha, hc⟩ := inInterval_lengths _ _ _ h
          simp only [List.length_cons] at ha hc
          omega
    cases a1 with
    | nil => simp at hlen
    | cons x xs =>
      cases c1 with
      | nil => simp at hlen
      | cons y ys =>
        cases a2 with
        | nil => simp at hlen
        | cons u us =>
          cases c2 with
          | nil => simp at hlen
          | cons v vs =>
            simp only [List.zipWith_cons_cons, inInterval, Bool.and_eq_true,
              decide_eq_true_eq]
            simp only [List.length_cons, Nat.add_right_cancel_iff] at h1 h2
            rcases h with h | h <;>
              simp only [inInterval, Bool.and_eq_true, decide_eq_true_eq] at h
            · exact ⟨⟨by omega, by omega⟩, ih xs ys us vs h1 h2 (Or.inl h.2)⟩
            · exact ⟨⟨by omega, by omega⟩, ih xs ys us vs h1 h2 (Or.inr h.2)⟩

/-- C8: starting frozen with an empty accumulated-dirty set, upstream dirty
notifications for `r1` then `r2` produce no downstream notification and are
accumulated as a bounding box; on setFrozen(false) exactly one downstream
notification is emitted, its region covering every point of `r1` and of
`r2`, and the accumulated-dirty set is cleared. -/
theorem C8_freeze_semantics (r1 r2 : Roi)
    (h1 : r1.start.length = r2.start.length) (h2 : r1.stop.length = r2.stop.length) :
    fixerRun ⟨true, none⟩ [.upstreamDirty r1, .upstreamDirty r2] =
      (⟨true, some (roiBoundingBox r1 r2)⟩, [])
    ∧ fixerRun ⟨true, none⟩ [.upstreamDirty r1, .upstreamDirty r2, .setFrozen false] =
        (⟨false, none⟩, [roiBoundingBox r1 r2])
    ∧ (∀ p, memRoi p r1 = true ∨ memRoi p r2 = true →
        memRoi p (roiBoundingBox r1 r2) = true) := by
  refine ⟨rfl, rfl, fun p h => ?_⟩
  exact inInterval_bbox p r1.start r1.stop r2.start r2.stop h1 h2 h

/-- Witness for C8 at concrete regions of a 2-d array. -/
theorem C8_freeze_semantics_witness :
    ((⟨[0, 0], [2, 2]⟩ : Roi).start.length = (⟨[5, 5], [9, 7]⟩ : Roi).start.length)
    ∧ ((⟨[0, 0], [2, 2]⟩ : Roi).stop.length = (⟨[5, 5], [9, 7]⟩ : Roi).stop.length)
    ∧ (fixerRun ⟨true, none⟩
        [.upstreamDirty ⟨[0, 0], [2, 2]⟩, .upstreamDirty ⟨[5, 5], [9, 7]⟩] =
        (⟨true, some (roiBoundingBox ⟨[0, 0], [2, 2]⟩ ⟨[5, 5], [9, 7]⟩)⟩, []))
    ∧ (fixerRun ⟨true, none⟩
        [.upstreamDirty ⟨[0, 0], [2, 2]⟩, .upstreamDirty ⟨[5, 5], [9, 7]⟩, .setFrozen false] =
        (⟨false, none⟩, [roiBoundingBox ⟨[0, 0], [2, 2]⟩ ⟨[5, 5], [9, 7]⟩]))
    ∧ memRoi [6, 5] (roiBoundingBox ⟨[0, 0], [2, 2]⟩ ⟨[5, 5], [9, 7]⟩) = true := by
  have h := C8_freeze_semantics ⟨[0, 0], [2, 2]⟩ ⟨[5, 5], [9, 7]⟩ rfl rfl
  exact ⟨rfl, rfl, h.1, h.2.1, h.2.2 [6, 5] (Or.inr (by decide))⟩

/-- The half-open interval of the grid cell containing `q` (block size `s`). -/
theorem axis_div_bounds (q s : Nat) (hs : 0 < s) :
    q / s * s ≤ q ∧ q < q / s * s + s := by
  have h1 : q / s * s + q % s = q := by rw [Nat.mul_comm]; exact Nat.div_add_mod q s
  have h3 := Nat.mod_lt q hs
  omega

/-- Two grid cells of the same axis cannot both contain `q`. -/
theorem axis_block_unique (b q s : Nat) (h1 : b * s ≤ q) (h2 : q < b * s + s) :
    b = q / s := by
  have := Nat.div_eq_of_lt_le h1 (by rw [Nat.add_mul, Nat.one_mul]; exact h2)
  omega

/-- The block index of a point of `[a, c)` overlaps `[a, c)`. -/
theorem mem_axisBlocks (a c s q : Nat) (ha : a ≤ q) (hc : q < c) :
    q / s ∈ axisBlocks a c s := by
  rw [axisBlocks, if_neg (by omega), List.mem_range'_1]
  have d1 : a / s ≤ q / s := Nat.div_le_div_right ha
  have d2 : q / s ≤ (c - 1) / s := Nat.div_le_div_right (by omega)
  omega

/-- Membership in a cartesian product, one axis at a time. -/
theorem mem_cartProd_cons {x : Nat} {t l : List Nat} {ls : List (List Nat)} :
    x :: t ∈ cartProd (l :: ls) ↔ x ∈ l ∧ t ∈ cartProd ls := by
  simp [cartProd]

/-- Elements of a cartesian product have one component per axis. -/
theorem mem_cartProd_length :
    ∀ (ls : List (List Nat)) (t : List Nat), t ∈ cartProd ls → t.length = ls.length := by
  intro ls
  induction ls with
  | nil => intro t ht; simp [cartProd] at ht; simp [ht]
  | cons l ls ih =>
    intro t ht
    cases t with
    | nil =>
      simp only [cartProd, List.mem_flatMap, List.mem_map] at ht
      obtain ⟨x, _, u, _, hu⟩ := ht
      exact absurd hu (by simp)
    | cons x t =>
      rw [mem_cartProd_cons] at ht
      simp [ih t ht.2]

/-- Length of the ternary zip. -/
theorem length_zipWith3 {α : Type} (f : Nat → Nat → Nat → α) :
    ∀ (as bs cs : List Nat),
      (zipWith3 f as bs cs).length = min as.length (min bs.length cs.length) := by
  intro as
  induction as with
  | nil => intro bs cs; simp [zipWith3]
  | cons a as ih =>
    intro bs cs
    cases bs with
    | nil => simp [zipWith3]
    | cons b bs =>
      cases cs with
      | nil => simp [zipWith3]
      | cons c cs => simp [zipWith3, ih bs cs]; omega

/-- An in-bounds ROI has matching dimensions with the array shape. -/
theorem roiInBounds_lengths :
    ∀ (a c sh : List Nat), roiInBounds a c sh = true →
      a.length = c.length ∧ a.length = sh.length := by
  intro a
  induction a with
  | nil => intro c sh h; cases c <;> cases sh <;> simp_all [roiInBounds]
  | cons x xs ih =>
    intro c sh h
    cases c with
    | nil => simp [roiInBounds] at h
    | cons y ys =>
      cases sh with
      | nil => simp [roiInBounds] at h
      | cons z zs =>
        simp only [roiInBounds, Bool.and_eq_true] at h
        have h2 := ih ys zs h.2
        simp only [List.length_cons]
        omega

/-- Per-axis bounds of an in-bounds ROI. -/
theorem roiInBounds_cons {a c sh : Nat} {as cs shs : List Nat}
    (h : roiInBounds (a :: as) (c :: cs) (sh :: shs) = true) :
    a ≤ c ∧ c ≤ sh ∧ roiInBounds as cs shs = true := by
  simp only [roiInBounds, Bool.and_eq_true, decide_eq_true_eq] at h
  exact ⟨h.1.1, h.1.2, h.2⟩

/-- The block containing a point of the ROI is among the overlapping blocks. -/
theorem blockOf_mem_overlapping :
    ∀ (p a c bs : List Nat), inInterval a p c = true → allPos bs = true →
      bs.length = p.length → blockOf p bs ∈ cartProd (zipWith3 axisBlocks a c bs) := by
  intro p
  induction p with
  | nil =>
    intro a c bs h _ hlen
    have hz := inInterval_lengths a [] c h
    simp only [List.length_nil] at hz hlen
    rw [List.length_eq_zero] at hlen
    obtain ⟨hz1, hz2⟩ := hz
    rw [List.length_eq_zero] at hz1 hz2
    subst hz1; subst hz2; subst hlen
    simp [blockOf, zipWith3, cartProd]
  | cons q qs ih =>
    intro a c bs h hpos hlen
    cases a with
    | nil => simp [inInterval] at h
    | cons x xs =>
      cases c with
      | nil => simp [inInterval] at h
      | cons y ys =>
        cases bs with
        | nil => simp at hlen
        | cons s ss =>
          simp only [inInterval, Bool.and_eq_true, decide_eq_true_eq] at h
          simp only [allPos, Bool.and_eq_true, decide_eq_true_eq] at hpos
          simp only [List.length_cons, Nat.add_right_cancel_iff] at hlen
          simp only [blockOf, List.zipWith_cons_cons, zipWith3]
          rw [mem_cartProd_cons]
          exact ⟨mem_axisBlocks x y s q h.1.1 h.1.2,
            ih xs ys ss h.2 hpos.2 hlen⟩

/-- A point of the ROI lies in the intersection of its own block's covering
ROI with the ROI. -/
theorem blockOf_cover_mem :
    ∀ (p a c bs sh : List Nat), inInterval a p c = true →
      roiInBounds a c sh = true → allPos bs = true → bs.length = p.length →
      inInterval
        (List.zipWith max (List.zipWith (fun bi s => bi * s) (blockOf p bs) bs) a) p
        (List.zipWith min
          (zipWith3 (fun bi s sh2 => min (bi * s + s) sh2) (blockOf p bs) bs sh) c)
        = true := by
  intro p
  induction p with
  | nil =>
    intro a c bs sh h _ _ hlen
    have hz := inInterval_lengths a [] c h
    simp only [List.length_nil] at hz hlen
    rw [List.length_eq_zero] at hlen
    obtain ⟨hz1, hz2⟩ := hz
    rw [List.length_eq_zero] at hz1 hz2
    subst hz1; subst hz2; subst hlen
    rfl
  | cons q qs ih =>
    intro a c bs sh h hb hpos hlen
    cases a with
    | nil => simp [inInterval] at h
    | cons x xs =>
      cases c with
      | nil => simp [inInterval] at h
      | cons y ys =>
        cases bs with
        | nil => simp at hlen
        | cons s ss =>
          cases sh with
          | nil => simp [roiInBounds] at hb
          | cons z zs =>
            obtain ⟨hxy, hyz, hb2⟩ := roiInBounds_cons hb
            simp only [inInterval, Bool.and_eq_true, decide_eq_true_eq] at h
            simp only [allPos, Bool.and_eq_true, decide_eq_true_eq] at hpos
            simp only [List.length_cons, Nat.add_right_cancel_iff] at hlen
            have hd := axis_div_bounds q s hpos.1
            simp only [blockOf, List.zipWith_cons_cons, zipWith3, inInterval,
              Bool.and_eq_true, decide_eq_true_eq]
            refine ⟨⟨?_, ?_⟩, ih xs ys ss zs h.2 hb2 hpos.2 hlen⟩
            · omega
            · have hqy := h.1.2
              omega

/-- Among the overlapping blocks, only the block containing `p` has `p` in
the intersection of its covering ROI with the requested ROI. -/
theorem block_unique :
    ∀ (b p a c bs sh : List Nat), b ∈ cartProd (zipWith3 axisBlocks a c bs) →
      inInterval
        (List.zipWith max (List.zipWith (fun bi s => bi * s) b bs) a) p
        (List.zipWith min
          (zipWith3 (fun bi s sh2 => min (bi * s + s) sh2) b bs sh) c) = true →
      b = blockOf p bs := by
  intro b
  induction b with
  | nil =>
    intro p a c bs sh _ h
    have hz := inInterval_lengths _ p _ h
    simp only [List.zipWith_nil_left, List.length_nil] at hz
    have hp : p = [] := by
      cases p with
      | nil => rfl
      | cons _ _ => exfalso; simp only [List.length_cons] at hz; omega
    subst hp
    simp [blockOf]
  | cons bi bt ih =>
    intro p a c bs sh hmem h
    cases a with
    | nil => simp [zipWith3, cartProd] at hmem
    | cons x xs =>
      cases c with
      | nil => simp [zipWith3, cartProd] at hmem
      | cons y ys =>
        cases bs with
        | nil => simp [zipWith3, cartProd] at hmem
        | cons s ss =>
          cases sh with
          | nil =>
            simp only [List.zipWith_cons_cons, zipWith3, List.zipWith_nil_left] at h
            cases p <;> simp [inInterval] at h
          | cons z zs =>
            cases p with
            | nil =>
              simp only [List.zipWith_cons_cons, zipWith3] at h
              simp [inInterval] at h
            | cons q qs =>
              simp only [zipWith3] at hmem
              rw [mem_cartProd_cons] at hmem
              simp only [List.zipWith_cons_cons, zipWith3, inInterval,
                Bool.and_eq_true, decide_eq_true_eq] at h
              have hbi : bi = q / s := by
                have h1 : bi * s ≤ q := by have := h.1.1; omega
                have h2 : q < bi * s + s := by have := h.1.2; omega
                exact axis_block_unique bi q s h1 h2
              simp only [blockOf, List.zipWith_cons_cons]
              rw [hbi]
              have := ih qs xs ys ss zs hmem.2 h.2
              simp only [blockOf] at this
              rw [this]

/-- A point in the intersection of two boxes of matching dimensions lies in
each box. -/
theorem inInterval_intersect :
    ∀ (p u a w c : List Nat),
      inInterval (List.zipWith max u a) p (List.zipWith min w c) = true →
      u.length = a.length → w.length = c.length →
      inInterval u p w = true ∧ inInterval a p c = true := by
  intro p
  induction p with
  | nil =>
    intro u a w c h h1 h2
    have hz := inInterval_lengths _ [] _ h
    simp only [List.length_nil, List.length_zipWith] at hz
    have hu : u.length = 0 := by omega
    have ha : a.length = 0 := by omega
    have hw : w.length = 0 := by omega
    have hc : c.length = 0 := by omega
    rw [List.length_eq_zero] at hu ha hw hc
    subst hu; subst ha; subst hw; subst hc
    exact ⟨rfl, rfl⟩
  | cons q qs ih =>
    intro u a w c h h1 h2
    have hz := inInterval_lengths _ (q :: qs) _ h
    simp only [List.length_cons, List.length_zipWith] at hz
    cases u with
    | nil => exfalso; simp only [List.length_nil] at hz; omega
    | cons u0 us =>
      cases a with
      | nil => simp at h1
      | cons a0 as =>
        cases w with
        | nil => exfalso; simp only [List.length_nil] at hz; omega
        | cons w0 ws =>
          cases c with
          | nil => simp at h2
          | cons c0 cs =>
            simp only [List.zipWith_cons_cons, inInterval, Bool.and_eq_true,
              decide_eq_true_eq] at h
            simp only [List.length_cons, Nat.add_right_cancel_iff] at h1 h2
            have ht := ih us as ws cs h.2 h1 h2
            simp only [inInterval, Bool.and_eq_true, decide_eq_true_eq]
            exact ⟨⟨⟨by have := h.1.1; omega, by have := h.1.2; omega⟩, ht.1⟩,
              ⟨⟨by have := h.1.1; omega, by have := h.1.2; omega⟩, ht.2⟩⟩

/-- Assembling the split results returns, at a point of the ROI, the value
fetched for the unique overlapping block containing that point. -/
theorem assembleBlocks_eq_block {α : Type} (cache : Roi → List Nat → α) (r : Roi)
    (bs shape : List Nat) (p : List Nat) :
    ∀ L : List (List Nat), blockOf p bs ∈ L →
      (∀ b ∈ L, memRoi p (roiIntersect (blockCoveringRoi b bs shape) r) = true →
        b = blockOf p bs) →
      memRoi p (roiIntersect (blockCoveringRoi (blockOf p bs) bs shape) r) = true →
      assembleBlocks r
        (L.map (fun b => (blockCoveringRoi b bs shape, cache (blockCoveringRoi b bs shape)))) p
        = some (cache (blockCoveringRoi (blockOf p bs) bs shape) p) := by
  intro L
  induction L with
  | nil => intro hmem; simp at hmem
  | cons b L ih =>
    intro hmem huniq hcov
    simp only [List.map_cons, assembleBlocks]
    by_cases hg : memRoi p (roiIntersect (blockCoveringRoi b bs shape) r) = true
    · rw [if_pos hg, huniq b (List.mem_cons_self b L) hg]
    · rw [if_neg hg]
      have hmem2 : blockOf p bs ∈ L := by
        rcases List.mem_cons.mp hmem with he | ht
        · exact absurd (he ▸ hcov) hg
        · exact ht
      exact ih hmem2 (fun b2 hb2 => huniq b2 (List.mem_cons_of_mem b hb2)) hcov

/-- Outside the requested ROI the assembled buffer is unwritten. -/
theorem assembleBlocks_outside {α : Type} (r : Roi) (p : List Nat) :
    ∀ L : List (Roi × (List Nat → α)),
      (∀ e ∈ L, memRoi p (roiIntersect e.1 r) = true → memRoi p r = true) →
      memRoi p r = false → assembleBlocks r L p = none := by
  intro L
  induction L with
  | nil => intro _ _; rfl
  | cons e L ih =>
    intro hsub hout
    simp only [assembleBlocks]
    rw [if_neg]
    · exact ih (fun e2 he2 => hsub e2 (List.mem_cons_of_mem e he2)) hout
    · intro hg
      rw [hsub e (List.mem_cons_self e L) hg] at hout
      exact absurd hout (by simp)

/-- Covering ROIs of overlapping blocks have the dimensions of the array. -/
theorem cover_lengths (r : Roi) (bs shape : List Nat)
    (hin : roiInBounds r.start r.stop shape = true) (hlen : bs.length = r.start.length) :
    ∀ b ∈ blocksOverlapping r bs,
      (blockCoveringRoi b bs shape).start.length = r.start.length ∧
      (blockCoveringRoi b bs shape).stop.length = r.stop.length := by
  intro b hb
  obtain ⟨hac, hash⟩ := roiInBounds_lengths r.start r.stop shape hin
  have hblen : b.length = r.start.length := by
    have := mem_cartProd_length _ b hb
    rw [this, length_zipWith3]
    omega
  constructor
  · simp only [blockCoveringRoi, List.length_zipWith]
    omega
  · simp only [blockCoveringRoi, length_zipWith3]
    omega

/-- C4: for an in-bounds ROI, every request the splitter issues to the cache
is the full covering ROI of an overlapping block (never the intersection
with the original ROI); at every point of the ROI the assembled result holds
the value fetched for the unique block containing that point; and the buffer
is sized to the original ROI — it is unwritten outside it. -/
theorem C4_splitter_full_blocks {α : Type} (cache : Roi → List Nat → α)
    (shape bs : List Nat) (r : Roi)
    (hin : roiInBounds r.start r.stop shape = true) (hpos : allPos bs = true)
    (hlen : bs.length = r.start.length) :
    (∀ q ∈ splitterRequests shape bs r,
      ∃ b ∈ blocksOverlapping r bs, q = blockCoveringRoi b bs shape)
    ∧ (∀ p, memRoi p r = true →
        blockOf p bs ∈ blocksOverlapping r bs
        ∧ splitterRead cache shape bs r p =
            some (cache (blockCoveringRoi (blockOf p bs) bs shape) p))
    ∧ (∀ p, memRoi p r = false → splitterRead cache shape bs r p = none) := by
  refine ⟨?_, ?_, ?_⟩
  · intro q hq
    simp only [splitterRequests, List.mem_map] at hq
    obtain ⟨b, hb, hbq⟩ := hq
    exact ⟨b, hb, hbq.symm⟩
  · intro p hp
    have hplen : bs.length = p.length := by
      have := inInterval_lengths r.start p r.stop hp
      omega
    have hmem : blockOf p bs ∈ blocksOverlapping r bs :=
      blockOf_mem_overlapping p r.start r.stop bs hp hpos hplen
    have hcov : memRoi p (roiIntersect (blockCoveringRoi (blockOf p bs) bs shape) r) = true := by
      simpa only [memRoi, roiIntersect, blockCoveringRoi] using
        blockOf_cover_mem p r.start r.stop bs shape hp hin hpos hplen
    refine ⟨hmem, ?_⟩
    have huniq : ∀ b ∈ blocksOverlapping r bs,
        memRoi p (roiIntersect (blockCoveringRoi b bs shape) r) = true →
        b = blockOf p bs := by
      intro b hb hbcov
      exact block_unique b p r.start r.stop bs shape hb
        (by simpa only [memRoi, roiIntersect, blockCoveringRoi] using hbcov)
    calc splitterRead cache shape bs r p
        = assembleBlocks r ((blocksOverlapping r bs).map
            (fun b => (blockCoveringRoi b bs shape,
              cache (blockCoveringRoi b bs shape)))) p := by
          simp only [splitterRead, splitterRequests, List.map_map]
          rfl
      _ = some (cache (blockCoveringRoi (blockOf p bs) bs shape) p) :=
          assembleBlocks_eq_block cache r bs shape p (blocksOverlapping r bs)
            hmem huniq hcov
  · intro p hp
    have hsub : ∀ e ∈ (splitterRequests shape bs r).map
        (fun q => (q, cache q)), memRoi p (roiIntersect e.1 r) = true →
        memRoi p r = true := by
      intro e he hint
      simp only [List.mem_map] at he
      obtain ⟨q, hq, heq⟩ := he
      simp only [splitterRequests, List.mem_map] at hq
      obtain ⟨b, hb, hbq⟩ := hq
      obtain ⟨hl1, hl2⟩ := cover_lengths r bs shape hin hlen b hb
      subst hbq
      rw [← heq] at hint
      have := inInterval_intersect p (blockCoveringRoi b bs shape).start r.start
        (blockCoveringRoi b bs shape).stop r.stop
        (by simpa only [memRoi, roiIntersect] using hint) hl1 hl2
      simpa only [memRoi] using this.2
    exact assembleBlocks_outside r p _ hsub hp

/-- Witness for C4 at the spec's concrete scenario: shape (100, 100), block
shape (32, 32), ROI [(10, 10), (20, 20)): the sole request is the full block
[(0, 0), (32, 32)), and evaluating the splitter at an interior point and an
exterior point matches the theorem. -/
theorem C4_splitter_full_blocks_witness :
    (roiInBounds (Roi.mk [10, 10] [20, 20]).start (Roi.mk [10, 10] [20, 20]).stop
        [100, 100] = true)
    ∧ allPos [32, 32] = true
    ∧ ([32, 32] : List Nat).length = (Roi.mk [10, 10] [20, 20]).start.length
    ∧ splitterRequests [100, 100] [32, 32] ⟨[10, 10], [20, 20]⟩ = [⟨[0, 0], [32, 32]⟩]
    ∧ splitterRead (fun q p => q.start.sum + p.sum) [100, 100] [32, 32]
        ⟨[10, 10], [20, 20]⟩ [12, 15] =
        some ((fun (q : Roi) (p : List Nat) => q.start.sum + p.sum)
          (blockCoveringRoi (blockOf [12, 15] [32, 32]) [32, 32] [100, 100]) [12, 15])
    ∧ splitterRead (fun q p => q.start.sum + p.sum) [100, 100] [32, 32]
        ⟨[10, 10], [20, 20]⟩ [50, 50] = none := by
  have h := C4_splitter_full_blocks (fun q p => q.start.sum + p.sum)
    [100, 100] [32, 32] ⟨[10, 10], [20, 20]⟩ (by decide) (by decide) (by decide)
  exact ⟨by decide, by decide, by decide, by decide,
    (h.2.1 [12, 15] (by decide)).2, h.2.2 [50, 50] (by decide)⟩

/-- A successful cache lookup returns a stored entry. -/
theorem lookupEntry_mem {α : Type} {st : CacheState α} {r : Roi} {e : CacheEntry α}
    (h : lookupEntry st r = some e) : (r, e) ∈ st := by
  unfold lookupEntry at h
  cases hf : st.find? (fun e2 => decide (e2.1 = r)) with
  | none => rw [hf] at h; simp at h
  | some pe =>
    rw [hf] at h
    simp only [Option.map] at h
    have hm := List.mem_of_find?_eq_some hf
    have hp := List.find?_some hf
    simp only [decide_eq_true_eq] at hp
    obtain ⟨r2, e2⟩ := pe
    simp only at hp h
    subst hp
    injection h with h2
    subst h2
    exact hm

/-- A cache read of a block returns data agreeing with upstream on it. -/
theorem cacheRead_agrees {α : Type} (up : List Nat → α) (st : CacheState α) (q : Roi)
    (hco : coherent up st) : ∀ p, memRoi p q = true → (cacheRead up st q).1 p = up p := by
  intro p hp
  unfold cacheRead
  cases hl : lookupEntry st q with
  | none => rfl
  | some e =>
    by_cases hd : e.dirty = true
    · simp only [hd, if_true]
    · have hd2 : e.dirty = false := by simpa using hd
      simp only [hd2, Bool.false_eq_true, if_false]
      exact hco (q, e) (lookupEntry_mem hl) hd2 p hp

/-- A cache read preserves coherence of the entry table. -/
theorem cacheRead_coherent {α : Type} (up : List Nat → α) (st : CacheState α) (q : Roi)
    (hco : coherent up st) : coherent up (cacheRead up st q).2 := by
  unfold cacheRead
  cases hl : lookupEntry st q with
  | none =>
    intro e he hd p hp
    rcases List.mem_cons.mp he with he | he
    · subst he; rfl
    · exact hco e he hd p hp
  | some e0 =>
    by_cases hd0 : e0.dirty = true
    · simp only [hd0, if_true]
      intro e he hd p hp
      rcases List.mem_cons.mp he with he | he
      · subst he; rfl
      · exact hco e he hd p hp
    · have hd2 : e0.dirty = false := by simpa using hd0
      simp only [hd2, Bool.false_eq_true, if_false]
      exact hco

/-- Unfolding a sequential fetch of one more block. -/
theorem fetchBlocks_cons {α : Type} (up : List Nat → α) (st : CacheState α) (q : Roi)
    (rest : List Roi) :
    fetchBlocks up st (q :: rest) =
      ((q, (cacheRead up st q).1) :: (fetchBlocks up (cacheRead up st q).2 rest).1,
        (fetchBlocks up (cacheRead up st q).2 rest).2) := rfl

/-- Serving a request list from a coherent cache pairs every request with
data agreeing with upstream on it, and leaves the cache coherent. -/
theorem fetchBlocks_spec {α : Type} (up : List Nat → α) :
    ∀ (qs : List Roi) (st : CacheState α), coherent up st →
      ((fetchBlocks up st qs).1.map Prod.fst = qs
       ∧ (∀ e ∈ (fetchBlocks up st qs).1, ∀ p, memRoi p e.1 = true → e.2 p = up p)
       ∧ coherent up (fetchBlocks up st qs).2) := by
  intro qs
  induction qs with
  | nil => intro st hco; exact ⟨rfl, by simp [fetchBlocks], hco⟩
  | cons q qs ih =>
    intro st hco
    rw [fetchBlocks_cons]
    have h1 := cacheRead_agrees up st q hco
    have h2 := cacheRead_coherent up st q hco
    obtain ⟨ha, hb, hc⟩ := ih (cacheRead up st q).2 h2
    refine ⟨by simp [ha], ?_, hc⟩
    intro e he p hp
    rcases List.mem_cons.mp he with he | he
    · subst he; exact h1 p hp
    · exact hb e he p hp

/-- At a point covered by some fetched block, assembly returns the upstream
value, provided all fetched data agrees with upstream. -/
theorem assembleBlocks_agrees {α : Type} (up : List Nat → α) (r : Roi) (p : List Nat) :
    ∀ L : List (Roi × (List Nat → α)),
      (∀ e ∈ L, ∀ p2, memRoi p2 e.1 = true → e.2 p2 = up p2) →
      (∀ e ∈ L, memRoi p (roiIntersect e.1 r) = true → memRoi p e.1 = true) →
      (∃ e ∈ L, memRoi p (roiIntersect e.1 r) = true) →
      assembleBlocks r L p = some (up p) := by
  intro L
  induction L with
  | nil => intro _ _ hex; simp at hex
  | cons e L ih =>
    intro hagree hsub hex
    simp only [assembleBlocks]
    by_cases hg : memRoi p (roiIntersect e.1 r) = true
    · rw [if_pos hg]
      rw [hagree e (List.mem_cons_self e L) p (hsub e (List.mem_cons_self e L) hg)]
    · rw [if_neg hg]
      have hex2 : ∃ e2 ∈ L, memRoi p (roiIntersect e2.1 r) = true := by
        obtain ⟨e2, he2, hg2⟩ := hex
        rcases List.mem_cons.mp he2 with he | he
        · exact absurd (he ▸ hg2) hg
        · exact ⟨e2, he, hg2⟩
      exact ih (fun e2 he2 => hagree e2 (List.mem_cons_of_mem e he2))
        (fun e2 he2 => hsub e2 (List.mem_cons_of_mem e he2)) hex2

/-- C6: reading any in-bounds ROI through the full pipeline (splitter over
cache over dirty-freeze stage) from any coherent cache state returns exactly
what a direct, uncached upstream `computeRegion` of that ROI returns, and
leaves the cache coherent: the caching layer is content-transparent. -/
theorem C6_cache_transparent {α : Type} (up : List Nat → α) (st : CacheState α)
    (shape bs : List Nat) (r : Roi) (hco : coherent up st)
    (hin : roiInBounds r.start r.stop shape = true) (hpos : allPos bs = true)
    (hlen : bs.length = r.start.length) :
    (∀ p, (pipelineRead up st shape bs r).1 p = computeRegion up r p)
    ∧ coherent up (pipelineRead up st shape bs r).2 := by
  obtain ⟨ha, hb, hc⟩ :=
    fetchBlocks_spec (opCacheFixerRead up) (splitterRequests shape bs r) st hco
  have hmemfst : ∀ e ∈ (fetchBlocks (opCacheFixerRead up) st (splitterRequests shape bs r)).1,
      ∃ b ∈ blocksOverlapping r bs, e.1 = blockCoveringRoi b bs shape := by
    intro e he
    have : e.1 ∈ splitterRequests shape bs r := by
      rw [← ha]
      exact List.mem_map_of_mem Prod.fst he
    simp only [splitterRequests, List.mem_map] at this
    obtain ⟨b, hbmem, hbe⟩ := this
    exact ⟨b, hbmem, hbe.symm⟩
  have hsub : ∀ (p : List Nat),
      ∀ e ∈ (fetchBlocks (opCacheFixerRead up) st (splitterRequests shape bs r)).1,
      memRoi p (roiIntersect e.1 r) = true → memRoi p e.1 = true ∧ memRoi p r = true
    := by
    intro p e he hint
    obtain ⟨b, hbmem, hbe⟩ := hmemfst e he
    obtain ⟨hl1, hl2⟩ := cover_lengths r bs shape hin hlen b hbmem
    rw [hbe] at hint ⊢
    have := inInterval_intersect p (blockCoveringRoi b bs shape).start r.start
      (blockCoveringRoi b bs shape).stop r.stop
      (by simpa only [memRoi, roiIntersect] using hint) hl1 hl2
    exact ⟨this.1, this.2⟩
  constructor
  · intro p
    by_cases hp : memRoi p r = true
    · have hplen : bs.length = p.length := by
        have := inInterval_lengths r.start p r.stop hp
        omega
      have hreq : blockCoveringRoi (blockOf p bs) bs shape ∈ splitterRequests shape bs r := by
        simp only [splitterRequests, List.mem_map]
        exact ⟨blockOf p bs, blockOf_mem_overlapping p r.start r.stop bs hp hpos hplen, rfl⟩
      have hcov : memRoi p
          (roiIntersect (blockCoveringRoi (blockOf p bs) bs shape) r) = true := by
        simpa only [memRoi, roiIntersect, blockCoveringRoi] using
          blockOf_cover_mem p r.start r.stop bs shape hp hin hpos hplen
      have hex : ∃ e ∈ (fetchBlocks (opCacheFixerRead up) st
          (splitterRequests shape bs r)).1, memRoi p (roiIntersect e.1 r) = true := by
        have : blockCoveringRoi (blockOf p bs) bs shape ∈
            ((fetchBlocks (opCacheFixerRead up) st
              (splitterRequests shape bs r)).1).map Prod.fst := by
          rw [ha]; exact hreq
        obtain ⟨e, he, heq⟩ := List.mem_map.mp this
        exact ⟨e, he, by rw [heq]; exact hcov⟩
      have := assembleBlocks_agrees up r p _ hb (fun e he hint => (hsub p e he hint).1) hex
      simp only [pipelineRead]
      rw [this, computeRegion, if_pos hp]
    · simp only [Bool.not_eq_true] at hp
      simp only [pipelineRead]
      rw [assembleBlocks_outside r p _ (fun e he hint => (hsub p e he hint).2) hp]
      rw [computeRegion, if_neg (by simp [hp])]
  · exact hc

/-- Witness for C6 on a 4x4 array with 2x2 blocks, empty initial cache, and
upstream summing the coordinates. -/
theorem C6_cache_transparent_witness :
    coherent (fun p => p.sum) ([] : CacheState Nat)
    ∧ roiInBounds (Roi.mk [1, 1] [3, 3]).start (Roi.mk [1, 1] [3, 3]).stop [4, 4] = true
    ∧ allPos [2, 2] = true
    ∧ ([2, 2] : List Nat).length = (Roi.mk [1, 1] [3, 3]).start.length
    ∧ (pipelineRead (fun p => p.sum) ([] : CacheState Nat) [4, 4] [2, 2]
        ⟨[1, 1], [3, 3]⟩).1 [1, 2] = some 3
    ∧ (pipelineRead (fun p => p.sum) ([] : CacheState Nat) [4, 4] [2, 2]
        ⟨[1, 1], [3, 3]⟩).1 [0, 0] = none := by
  have hco : coherent (fun p : List Nat => p.sum) ([] : CacheState Nat) := by
    intro e he; exact absurd he (List.not_mem_nil e)
  have h := C6_cache_transparent (fun p => p.sum) ([] : CacheState Nat) [4, 4] [2, 2]
    ⟨[1, 1], [3, 3]⟩ hco (by decide) (by decide) (by decide)
  refine ⟨hco, by decide, by decide, by decide, ?_, ?_⟩
  · rw [h.1 [1, 2]]; rfl
  · rw [h.1 [0, 0]]; rfl

/-- One step preserves the lock invariant. -/
theorem lockInv_step {T B : Type} [DecidableEq T] [DecidableEq B]
    {s1 s2 : SysState T B} {e : Evt B} (h : SysStep s1 e s2) (hinv : lockInv s1) :
    lockInv s2 := by
  cases h with
  | request t b hidle =>
    intro t2 b2 hrun
    simp only at hrun ⊢
    by_cases ht : t2 = t
    · subst ht; rw [Function.update_same] at hrun; exact absurd hrun (by simp)
    · rw [Function.update_noteq ht] at hrun; exact hinv t2 b2 hrun
  | hit t b hw hv =>
    intro t2 b2 hrun
    simp only at hrun ⊢
    by_cases ht : t2 = t
    · subst ht; rw [Function.update_same] at hrun; exact absurd hrun (by simp)
    · rw [Function.update_noteq ht] at hrun; exact hinv t2 b2 hrun
  | start t b hw hm =>
    intro t2 b2 hrun
    simp only at hrun ⊢
    by_cases ht : t2 = t
    · subst ht
      rw [Function.update_same] at hrun
      injection hrun with hb
      subst hb
      rw [Function.update_same]
    · rw [Function.update_noteq ht] at hrun
      have he := hinv t2 b2 hrun
      by_cases hb : b2 = b
      · subst hb; rw [hm] at he; exact absurd he (by simp)
      · rw [Function.update_noteq hb]; exact he
  | finish t b hr he =>
    intro t2 b2 hrun
    simp only at hrun ⊢
    by_cases ht : t2 = t
    · subst ht; rw [Function.update_same] at hrun; exact absurd hrun (by simp)
    · rw [Function.update_noteq ht] at hrun
      have he2 := hinv t2 b2 hrun
      by_cases hb : b2 = b
      · subst hb
        rw [he] at he2
        injection he2 with ht2
        exact absurd ht2.symm ht
      · rw [Function.update_noteq hb]; exact he2

/-- A whole execution preserves the lock invariant. -/
theorem lockInv_exec {T B : Type} [DecidableEq T] [DecidableEq B]
    {s1 s2 : SysState T B} {tr : List (Evt B)} (h : SysExec s1 tr s2) :
    lockInv s1 → lockInv s2 := by
  induction h with
  | nil => exact id
  | cons hstep _ ih => exact fun hinv => ih (lockInv_step hstep hinv)

/-- No step turns a non-missing entry back into a missing one. -/
theorem step_notMissing {T B : Type} [DecidableEq T] [DecidableEq B]
    {s1 s2 : SysState T B} {e : Evt B} (h : SysStep s1 e s2) (b : B)
    (hnm : s1.entry b ≠ .missing) : s2.entry b ≠ .missing := by
  cases h with
  | request t b2 h1 => exact hnm
  | hit t b2 h1 h2 => exact hnm
  | start t b2 h1 h2 =>
    simp only
    by_cases hb : b = b2
    · subst hb; rw [Function.update_same]; simp
    · rw [Function.update_noteq hb]; exact hnm
  | finish t b2 h1 h2 =>
    simp only
    by_cases hb : b = b2
    · subst hb; rw [Function.update_same]; simp
    · rw [Function.update_noteq hb]; exact hnm

/-- An upstream computation of `b` can only start on a missing entry and
leaves it non-missing. -/
theorem step_computeStart {T B : Type} [DecidableEq T] [DecidableEq B]
    {s1 s2 : SysState T B} {b : B} (h : SysStep s1 (.computeStart b) s2) :
    s1.entry b = .missing ∧ s2.entry b ≠ .missing := by
  cases h with
  | start t b2 h1 h2 =>
    refine ⟨h2, ?_⟩
    simp only
    rw [Function.update_same]
    simp

/-- Once an entry is non-missing, no further computation of it ever starts. -/
theorem exec_noStart {T B : Type} [DecidableEq T] [DecidableEq B] :
    ∀ (tr : List (Evt B)) (s1 s2 : SysState T B), SysExec s1 tr s2 →
      ∀ b, s1.entry b ≠ .missing → countStart tr b = 0 := by
  intro tr
  induction tr with
  | nil => intro s1 s2 _ b _; rfl
  | cons e tr ih =>
    intro s1 s3 h b hnm
    cases h with
    | cons hstep hexec =>
      rename_i sm
      have h1 := ih sm s3 hexec b (step_notMissing hstep b hnm)
      rw [countStart, List.countP_cons]
      rw [countStart] at h1
      rw [h1]
      by_cases he : e = .computeStart b
      · subst he; exact absurd (step_computeStart hstep).1 hnm
      · simp [he]

/-- At most one upstream computation of any block in any execution. -/
theorem exec_atMostOne {T B : Type} [DecidableEq T] [DecidableEq B] :
    ∀ (tr : List (Evt B)) (s1 s2 : SysState T B), SysExec s1 tr s2 →
      ∀ b, countStart tr b ≤ 1 := by
  intro tr
  induction tr with
  | nil => intro s1 s2 _ b; exact Nat.zero_le 1
  | cons e tr ih =>
    intro s1 s3 h b
    cases h with
    | cons hstep hexec =>
      rename_i sm
      rw [countStart, List.countP_cons]
      by_cases he : e = .computeStart b
      · subst he
        have hz := exec_noStart tr sm s3 hexec b (step_computeStart hstep).2
        rw [countStart] at hz
        simp [hz]
      · have h2 := ih sm s3 hexec b
        rw [countStart] at h2
        simp [he]
        omega

/-- In an execution launching no computation of `b` from a state where `b`
is missing, `b` stays missing and no requester newly completes a read of
`b`. -/
theorem exec_zeroStart {T B : Type} [DecidableEq T] [DecidableEq B] :
    ∀ (tr : List (Evt B)) (s1 s2 : SysState T B), SysExec s1 tr s2 →
      ∀ b, countStart tr b = 0 → s1.entry b = .missing →
      s2.entry b = .missing ∧
        (∀ t, s2.thr t = .finished b → s1.thr t = .finished b) := by
  intro tr
  induction tr with
  | nil =>
    intro s1 s2 h b _ hm
    cases h
    exact ⟨hm, fun t ht => ht⟩
  | cons e tr ih =>
    intro s1 s3 h b hz hm
    cases h with
    | cons hstep hexec =>
      rename_i sm
      rw [countStart, List.countP_cons] at hz
      have hz1 : countStart tr b = 0 := by rw [countStart]; omega
      have hz2 : e ≠ Evt.computeStart b := by
        intro he
        subst he
        simp at hz
      cases hstep with
      | request t2 b2 h1 =>
        obtain ⟨hrest1, hrest2⟩ := ih _ s3 hexec b hz1 hm
        refine ⟨hrest1, fun t ht => ?_⟩
        have := hrest2 t ht
        simp only at this
        by_cases htt : t = t2
        · subst htt; rw [Function.update_same] at this; exact absurd this (by simp)
        · rw [Function.update_noteq htt] at this; exact this
      | hit t2 b2 h1 h2 =>
        obtain ⟨hrest1, hrest2⟩ := ih _ s3 hexec b hz1 hm
        refine ⟨hrest1, fun t ht => ?_⟩
        have := hrest2 t ht
        simp only at this
        by_cases htt : t = t2
        · subst htt
          rw [Function.update_same] at this
          injection this with hbb
          subst hbb
          rw [hm] at h2
          exact absurd h2 (by simp)
        · rw [Function.update_noteq htt] at this; exact this
      | start t2 b2 h1 h2 =>
        have hbb : b2 ≠ b := by
          intro hb; subst hb; exact hz2 rfl
        obtain ⟨hrest1, hrest2⟩ := ih _ s3 hexec b hz1
          (by simp only; rw [Function.update_noteq (fun hb => hbb hb.symm)]; exact hm)
        refine ⟨hrest1, fun t ht => ?_⟩
        have := hrest2 t ht
        simp only at this
        by_cases htt : t = t2
        · subst htt; rw [Function.update_same] at this; exact absurd this (by simp)
        · rw [Function.update_noteq htt] at this; exact this
      | finish t2 b2 h1 h2 =>
        have hbb : b2 ≠ b := by
          intro hb; subst hb; rw [hm] at h2; exact absurd h2 (by simp)
        obtain ⟨hrest1, hrest2⟩ := ih _ s3 hexec b hz1
          (by simp only; rw [Function.update_noteq (fun hb => hbb hb.symm)]; exact hm)
        refine ⟨hrest1, fun t ht => ?_⟩
        have := hrest2 t ht
        simp only at this
        by_cases htt : t = t2
        · subst htt
          rw [Function.update_same] at this
          injection this with hbb2
          exact absurd hbb2 hbb
        · rw [Function.update_noteq htt] at this; exact this

/-- C7: in the single-flight cache model, along any execution from a state
satisfying the lock invariant: (1) at any reachable state, at most one
requester is computing any given block; (2) any block's upstream computation
is launched at most once in the whole trace; (3) if a block was initially
uncomputed and some requester newly completed a read of it, its upstream
computation was launched exactly once, no matter how many concurrent
requesters wanted it. -/
theorem C7_single_flight {T B : Type} [DecidableEq T] [DecidableEq B]
    (s0 s : SysState T B) (tr : List (Evt B)) (hexec : SysExec s0 tr s)
    (hinv : lockInv s0) :
    (∀ (b : B) (t1 t2 : T), s.thr t1 = .running b → s.thr t2 = .running b → t1 = t2)
    ∧ (∀ b : B, countStart tr b ≤ 1)
    ∧ (∀ (b : B) (t : T), s0.entry b = .missing → s0.thr t ≠ .finished b →
        s.thr t = .finished b → countStart tr b = 1) := by
  have hinv2 := lockInv_exec hexec hinv
  refine ⟨?_, fun b => exec_atMostOne tr s0 s hexec b, ?_⟩
  · intro b t1 t2 h1 h2
    have e1 := hinv2 t1 b h1
    have e2 := hinv2 t2 b h2
    rw [e1] at e2
    exact EntryState.inFlight.inj e2
  · intro b t hm hnf hf
    by_cases hz : countStart tr b = 0
    · exact absurd ((exec_zeroStart tr s0 s hexec b hz hm).2 t hf) hnf
    · have := exec_atMostOne tr s0 s hexec b
      omega

/-- Witness for C7: two requesters (named `false` and `true`) both read the
same block; one acquires the lock and computes, the other waits and is then
served from the store; the trace launches exactly one upstream computation
of the block. -/
theorem C7_single_flight_witness :
    countStart [Evt.tau, Evt.tau, Evt.computeStart true, Evt.tau, Evt.tau] true = 1 := by
  have hinv : lockInv (⟨fun _ => .missing, fun _ => .idle⟩ : SysState Bool Bool) :=
    fun t b h => ThreadState.noConfusion h
  have hexec : SysExec (⟨fun _ => .missing, fun _ => .idle⟩ : SysState Bool Bool)
      [Evt.tau, Evt.tau, Evt.computeStart true, Evt.tau, Evt.tau]
      ⟨Function.update
          (Function.update (fun _ => EntryState.missing) true (.inFlight false))
          true .valid,
        Function.update
          (Function.update
            (Function.update
              (Function.update (Function.update (fun _ => ThreadState.idle)
                false (.wants true)) true (.wants true))
              false (.running true))
            false (.finished true))
          true (.finished true)⟩ :=
    .cons (.request _ false true rfl)
      (.cons (.request _ true true (by simp [Function.update]))
        (.cons (.start _ false true (by simp [Function.update]) rfl)
          (.cons (.finish _ false true (by simp [Function.update])
              (by simp [Function.update]))
            (.cons (.hit _ true true (by simp [Function.update])
                (by simp [Function.update]))
              (.nil _)))))
  have h := C7_single_flight _ _ _ hexec hinv
  exact h.2.2 true true rfl (fun hc => ThreadState.noConfusion hc)
    (by simp [Function.update])

end RefactoredBlockedArrayCache
